import Mathlib

/-!
Shallow embedding of the aggregation core of `test_website/streamlit_app.py`:
column type inference (`can_parse_datetime` / `is_numeric_like`), grouping-key
derivation (`astype("string")` cast or hour/date/weekday/month time
derivation), numeric coercion of the Y columns, `dropna` plus
`groupby(...).agg`, the post-aggregation sort block, and the display-range
filter.  Group-by follows the pandas defaults the script relies on:
`sort=True` (distinct keys ascending in their dtype's order) and observed
categories only.
-/

/-- A parsed timestamp, as pandas exposes it through the `.dt` accessors the
app uses (`dt.hour`, `dt.date`, `dt.weekday`, `dt.month`).  `weekday` is the
day of week with Monday = 0, as in pandas. -/
structure Timestamp where
  year : Nat
  month : Nat
  day : Nat
  hour : Nat
  weekday : Fin 7
deriving DecidableEq

/-- One cell of the uploaded table.  A non-missing cell carries the outcome of
`pd.to_datetime(·, errors="coerce")` (`asTime`), of
`pd.to_numeric(·, errors="coerce")` (`asNum`), and its `astype("string")`
rendering (`asStr`).  A missing cell (NaN) fails both coercions and its string
cast is the missing marker, which `dropna` removes. -/
inductive Cell where
  | missing : Cell
  | val (asTime : Option Timestamp) (asNum : Option Rat) (asStr : String) : Cell
deriving DecidableEq

/-- `pd.to_datetime(cell, errors="coerce")`. -/
def toDatetime : Cell → Option Timestamp
  | .missing => none
  | .val t _ _ => t

/-- `pd.to_numeric(cell, errors="coerce")`. -/
def toNumeric : Cell → Option Rat
  | .missing => none
  | .val _ n _ => n

/-- `cell.astype("string")`: missing stays missing, otherwise the string form. -/
def toStringCast : Cell → Option String
  | .missing => none
  | .val _ _ s => some s

/-- A row of the table: column name paired with its cell. -/
abbrev Row := List (String × Cell)

/-- A table: rows in source order (`raw`). -/
abbrev Table := List Row

/-- The cell of column `c` in row `r`. -/
def getCell (r : Row) (c : String) : Cell :=
  match r.find? (fun p => p.1 == c) with
  | some p => p.2
  | none => Cell.missing

/-- The cells of column `c` in source order, `raw[c]`. -/
def colCells (tbl : Table) (c : String) : List Cell :=
  tbl.map (fun r => getCell r c)

/-- `pd.to_datetime(series, errors="coerce").notna().mean()`: the fraction of
the column's cells that coerce to a timestamp (`can_parse_datetime`).
Rat division by zero is zero, matching the falsity of `NaN > 0.5`. -/
def timeParseFrac (col : List Cell) : Rat :=
  ((col.countP (fun c => (toDatetime c).isSome) : Nat) : Rat) / ((col.length : Nat) : Rat)

/-- `pd.to_numeric(series, errors="coerce").notna().mean()`. -/
def numParseFrac (col : List Cell) : Rat :=
  ((col.countP (fun c => (toNumeric c).isSome) : Nat) : Rat) / ((col.length : Nat) : Rat)

/-- `can_parse_datetime(col) > 0.5`, the membership test producing
`datetime_candidates` and hence `x_is_datetime`. -/
def isTimeLikeCol (col : List Cell) : Bool := decide (timeParseFrac col > 1/2)

/-- `is_numeric_like(col)`: numeric parse ratio strictly above one half. -/
def isNumericLikeCol (col : List Cell) : Bool := decide (numParseFrac col > 1/2)

/-- The four options of the 时间派生 selectbox (hour 0–23, calendar date,
weekday, month 1–12). -/
inductive TimeMode where
  | hour | date | weekday | month
deriving DecidableEq

/-- The mapping `{0:"一", …, 6:"日"}` labelling the weekday categories,
Monday first. -/
def weekdayLabel : Nat → String
  | 0 => "一"
  | 1 => "二"
  | 2 => "三"
  | 3 => "四"
  | 4 => "五"
  | 5 => "六"
  | _ => "日"

/-- A derived grouping-key value (`_X_key`).  The dtype of the key column
fixes which constructor occurs in a given run: `knum` for hour/month
derivation, `kdate` for date derivation, `kcat` for the ordered weekday
categorical (payload = category position 0–6, Monday = 0), and `kstr` for the
`astype("string")` cast of a non-time-like X. -/
inductive Key where
  | knum (n : Int)
  | kdate (y m d : Nat)
  | kcat (n : Nat)
  | kstr (s : String)
deriving DecidableEq

/-- Constructor rank, used only to make the key order total across
constructors; a single run never mixes constructors. -/
def keyRank : Key → Nat
  | .knum _ => 0
  | .kdate _ _ _ => 1
  | .kcat _ => 2
  | .kstr _ => 3

/-- Chronological (lexicographic) comparison of (year, month, day) triples. -/
def dateTripleLe (a b : Nat × Nat × Nat) : Bool :=
  decide (a.1 < b.1 ∨ (a.1 = b.1 ∧ (a.2.1 < b.2.1 ∨ (a.2.1 = b.2.1 ∧ a.2.2 ≤ b.2.2))))

/-- Lexicographic code-point comparison of character lists — the order Python
and pandas apply to string keys. -/
def charListLe : List Char → List Char → Bool
  | [], _ => true
  | _ :: _, [] => false
  | a :: as, b :: bs =>
    if a.toNat < b.toNat then true
    else if b.toNat < a.toNat then false
    else charListLe as bs

/-- String comparison as Python compares `str` values: lexicographic by code
point. -/
def strLe (a b : String) : Bool := charListLe a.data b.data

/-- The ascending order `groupby(..., sort=True)` uses on the distinct key
values of each dtype: numeric, chronological, category position, or
lexicographic string order. -/
def keyLe : Key → Key → Bool
  | .knum a, .knum b => decide (a ≤ b)
  | .kdate y1 m1 d1, .kdate y2 m2 d2 => dateTripleLe (y1, m1, d1) (y2, m2, d2)
  | .kcat a, .kcat b => decide (a ≤ b)
  | .kstr a, .kstr b => strLe a b
  | a, b => decide (keyRank a < keyRank b)

/-- `keyLe` as a relation. -/
def KeyLE (a b : Key) : Prop := keyLe a b = true

instance : DecidableRel KeyLE := fun a b => inferInstanceAs (Decidable (keyLe a b = true))

/-- Key derivation, lines 307–325: with a time-like X the selected mode maps
the parsed timestamp (`ts.dt.hour` / `ts.dt.date` / weekday label /
`ts.dt.month`); otherwise `_X_key = df[x_col].astype("string")`.  A cell whose
parse fails yields a missing key. -/
def deriveKey (isdt : Bool) (mode : TimeMode) (c : Cell) : Option Key :=
  if isdt then
    match mode with
    | .hour => (toDatetime c).map (fun t => Key.knum t.hour)
    | .date => (toDatetime c).map (fun t => Key.kdate t.year t.month t.day)
    | .weekday => (toDatetime c).map (fun t => Key.kcat t.weekday.val)
    | .month => (toDatetime c).map (fun t => Key.knum t.month)
  else
    (toStringCast c).map Key.kstr

/-- Collect a list of optional values; `none` exactly when an entry is
missing. -/
def seqOption {α : Type} : List (Option α) → Option (List α)
  | [] => some []
  | none :: _ => none
  | some a :: rest => (seqOption rest).map (a :: ·)

/-- The contribution of one source row after key derivation, numeric coercion
of the Y columns (lines 328–329), and `df.dropna(subset=["_X_key"] + y_cols)`
(line 338): `none` exactly when the row is dropped. -/
def rowKept (xcol : String) (isdt : Bool) (mode : TimeMode) (ycols : List String)
    (r : Row) : Option (Key × List Rat) :=
  match deriveKey isdt mode (getCell r xcol) with
  | none => none
  | some k =>
    match seqOption (ycols.map (fun c => toNumeric (getCell r c))) with
    | none => none
    | some ys => some (k, ys)

/-- The rows surviving `dropna`, with their derived key and coerced Y values. -/
def keptRows (tbl : Table) (xcol : String) (isdt : Bool) (mode : TimeMode)
    (ycols : List String) : List (Key × List Rat) :=
  tbl.filterMap (rowKept xcol isdt mode ycols)

/-- The options of the 聚合方式 selectbox, line 301. -/
def aggOptions : List String := ["sum", "mean", "median", "max", "min"]

/-- The reductions the engine can apply. -/
inductive Agg where
  | sum | mean | median | max | min
deriving DecidableEq

/-- The selectbox string naming each reduction. -/
def aggName : Agg → String
  | .sum => "sum"
  | .mean => "mean"
  | .median => "median"
  | .max => "max"
  | .min => "min"

/-- Sum of a list of rationals. -/
def ratSum (l : List Rat) : Rat := l.foldl (· + ·) 0

/-- The pandas reduction applied per group and Y column.  Groups produced by
the pipeline are nonempty with no missing values (`dropna` ran first), so the
`[]` fallbacks are never exercised by it. -/
def reduce : Agg → List Rat → Rat
  | .sum, l => ratSum l
  | .mean, l => ratSum l / ((l.length : Nat) : Rat)
  | .median, l =>
    let s := List.insertionSort (· ≤ ·) l
    if l.length % 2 = 1 then s.getD (l.length / 2) 0
    else (s.getD (l.length / 2 - 1) 0 + s.getD (l.length / 2) 0) / 2
  | .max, l =>
    match l with
    | [] => 0
    | x :: xs => xs.foldl max x
  | .min, l =>
    match l with
    | [] => 0
    | x :: xs => xs.foldl min x

/-- `df.groupby("_X_key")` with the default `sort=True`: the distinct keys in
ascending `KeyLE` order (observed keys only). -/
def groupKeys (kept : List (Key × List Rat)) : List Key :=
  List.insertionSort KeyLE (kept.map Prod.fst).dedup

/-- One row of the aggregated view: the key and one reduced value per selected
Y column. -/
structure OutRow where
  key : Key
  vals : List Rat
deriving DecidableEq

/-- `grouped.agg(agg_map).reset_index()`: for each distinct key in group-by
order, each Y position is reduced over that group's coerced values. -/
def aggOfKept (fn : Agg) (numY : Nat) (kept : List (Key × List Rat)) : List OutRow :=
  (groupKeys kept).map (fun k =>
    let g := (kept.filter (fun p => decide (p.1 = k))).map Prod.snd
    ⟨k, (List.range numY).map (fun j => reduce fn (g.map (fun ys => ys.getD j 0)))⟩)

/-- The aggregated view of lines 336–341. -/
def aggView (tbl : Table) (xcol : String) (isdt : Bool) (mode : TimeMode)
    (ycols : List String) (fn : Agg) : List OutRow :=
  aggOfKept fn ycols.length (keptRows tbl xcol isdt mode ycols)

/-- Row order lifted from the key order. -/
def OutRowLE (a b : OutRow) : Prop := KeyLE a.key b.key

instance : DecidableRel OutRowLE := fun a b => inferInstanceAs (Decidable (keyLe a.key b.key = true))

/-- The sort block, lines 343–351: hour/month keys are converted to numeric
and re-sorted ascending; every other key dtype (dates are object dtype, the
weekday key is categorical, the cast key is string dtype) fails
`is_numeric_dtype`, so the `elif` branch never fires and the view keeps the
group-by order. -/
def postSort (isdt : Bool) (mode : TimeMode) (view : List OutRow) : List OutRow :=
  if isdt = true ∧ (mode = TimeMode.hour ∨ mode = TimeMode.month) then
    List.insertionSort OutRowLE view
  else view

/-- The full engine run: `x_is_datetime` from the parse-ratio test, the
empty-Y guard (lines 332–334, `st.stop`) yielding no view at all, then
coercion, `dropna`, group-by aggregation and the sort block. -/
def runPipeline (tbl : Table) (xcol : String) (mode : TimeMode) (ycols : List String)
    (fn : Agg) : Option (List OutRow) :=
  let isdt := isTimeLikeCol (colCells tbl xcol)
  if ycols.isEmpty then none
  else some (postSort isdt mode (aggView tbl xcol isdt mode ycols fn))

/-- The bounds of one 显示范围 filter application: a date range, a numeric
range (the slider and the min/max inputs apply the same predicate), or a
category inclusion set. -/
inductive FilterSpec where
  | dateRange (lo hi : Nat × Nat × Nat)
  | numRange (lo hi : Rat)
  | catSet (chosen : List String)

/-- The string under which a key value appears in the category multiselect
(`astype("string")` of the view's key column). -/
def keyCatStr : Key → String
  | .kstr s => s
  | .kcat n => weekdayLabel n
  | .knum n => toString n
  | .kdate y m d => toString y ++ "-" ++ toString m ++ "-" ++ toString d

/-- The per-row predicate of the filter block (lines 353–383): inclusive
bounds on both sides, or membership of the chosen category set. -/
def rowPass : FilterSpec → OutRow → Bool
  | .dateRange lo hi, r =>
    match r.key with
    | .kdate y m d => dateTripleLe lo (y, m, d) && dateTripleLe (y, m, d) hi
    | _ => false
  | .numRange lo hi, r =>
    match r.key with
    | .knum n => decide (lo ≤ (n : Rat) ∧ (n : Rat) ≤ hi)
    | _ => false
  | .catSet chosen, r => decide (keyCatStr r.key ∈ chosen)

/-- One application of the 显示范围 filter: a pure row-subset of the view. -/
def applyFilter (spec : FilterSpec) (v : List OutRow) : List OutRow :=
  v.filter (rowPass spec)

/-- Modelled from the spec for comparison with the code's group-by order (this
is the spec's wording, not the source): "preserve first-occurrence order from
the source table" — the distinct keys of the kept rows in order of first
appearance. -/
def firstOccurrenceKeys (kept : List (Key × List Rat)) : List Key :=
  (kept.map Prod.fst).foldl (fun acc k => if k ∈ acc then acc else acc ++ [k]) []

/-- The ordered categories of the weekday categorical, Monday first. -/
def weekdayOrder : List Key := (List.range 7).map Key.kcat

/-! ## Concrete inputs used to instantiate the results -/

/-- A table whose "A" group has only a missing Y value while the "B" group
has Y = 5; X is a plain categorical column. -/
def tblMissingY : Table :=
  [[("x", Cell.val none none "A"), ("y", Cell.missing)],
   [("x", Cell.val none none "B"), ("y", Cell.val none (some 5) "5")]]

/-- A categorical table whose X values appear in the order "B", "A". -/
def tblCat : Table :=
  [[("x", Cell.val none none "B"), ("y", Cell.val none (some 1) "1")],
   [("x", Cell.val none none "A"), ("y", Cell.val none (some 2) "2")]]

/-- A table whose X column holds the numbers 2 and 10: numeric to
`pd.to_numeric` but not datetime-parseable, so X is not time-like and the key
is the string cast. -/
def tblNum : Table :=
  [[("x", Cell.val none (some 2) "2"), ("y", Cell.val none (some 1) "1")],
   [("x", Cell.val none (some 10) "10"), ("y", Cell.val none (some 1) "1")]]

/-- 2023-01-15 (a Sunday, hour 8). -/
def tsJan2023 : Timestamp := ⟨2023, 1, 15, 8, 6⟩

/-- 2024-01-20 (a Saturday, hour 9). -/
def tsJan2024 : Timestamp := ⟨2024, 1, 20, 9, 5⟩

/-- A time table with one row in January 2023 (Y = 10) and one in January
2024 (Y = 5). -/
def tblTwoYears : Table :=
  [[("ts", Cell.val (some tsJan2023) none "2023-01-15 08:00:00"),
    ("y", Cell.val none (some 10) "10")],
   [("ts", Cell.val (some tsJan2024) none "2024-01-20 09:00:00"),
    ("y", Cell.val none (some 5) "5")]]

/-- A time table whose rows arrive with hours 9 then 8 (same date). -/
def tblHours : Table :=
  [[("ts", Cell.val (some ⟨2024, 1, 1, 9, 0⟩) none "2024-01-01 09:15:00"),
    ("y", Cell.val none (some 7) "7")],
   [("ts", Cell.val (some ⟨2024, 1, 1, 8, 0⟩) none "2024-01-01 08:00:00"),
    ("y", Cell.val none (some 3) "3")]]

/-- A time table whose rows arrive on a Wednesday (weekday 2) then a Monday
(weekday 0). -/
def tblWeekdays : Table :=
  [[("ts", Cell.val (some ⟨2024, 1, 3, 8, 2⟩) none "2024-01-03 08:00:00"),
    ("y", Cell.val none (some 5) "5")],
   [("ts", Cell.val (some ⟨2024, 1, 1, 9, 0⟩) none "2024-01-01 09:00:00"),
    ("y", Cell.val none (some 3) "3")]]

/-- A one-row categorical table with a valid Y value. -/
def tblBase : Table :=
  [[("x", Cell.val none none "B"), ("y", Cell.val none (some 5) "5")]]

/-- A row whose key parses (to "C") but whose Y value fails numeric
coercion. -/
def rowBadY : Row := [("x", Cell.val none none "C"), ("y", Cell.val none none "oops")]

/-! ## Order facts about the group-by key order -/

theorem charListLe_cons (x y : Char) (xs ys : List Char) :
    charListLe (x :: xs) (y :: ys) =
      (if x.toNat < y.toNat then true
       else if y.toNat < x.toNat then false
       else charListLe xs ys) := rfl

theorem charListLe_total : ∀ (a b : List Char), charListLe a b = true ∨ charListLe b a = true := by
  intro a
  induction a with
  | nil => intro b; left; rfl
  | cons x xs ih =>
    intro b
    cases b with
    | nil => right; rfl
    | cons y ys =>
      rw [charListLe_cons, charListLe_cons]
      rcases ih ys with h | h <;> split_ifs <;> simp_all

theorem charListLe_trans : ∀ {a b c : List Char}, charListLe a b = true →
    charListLe b c = true → charListLe a c = true := by
  intro a
  induction a with
  | nil => intros; rfl
  | cons x xs ih =>
    intro b c h1 h2
    cases b with
    | nil => simp [charListLe] at h1
    | cons y ys =>
      cases c with
      | nil => simp [charListLe] at h2
      | cons z zs =>
        rw [charListLe_cons] at h1 h2 ⊢
        split_ifs at h1 h2 ⊢ <;> first | rfl | omega | exact ih h1 h2

theorem char_eq_of_toNat_eq {a b : Char} (h : a.toNat = b.toNat) : a = b :=
  Char.eq_of_val_eq (UInt32.ext h)

theorem charListLe_antisymm : ∀ {a b : List Char}, charListLe a b = true →
    charListLe b a = true → a = b := by
  intro a
  induction a with
  | nil =>
    intro b _ h2
    cases b with
    | nil => rfl
    | cons y ys => simp [charListLe] at h2
  | cons x xs ih =>
    intro b h1 h2
    cases b with
    | nil => simp [charListLe] at h1
    | cons y ys =>
      rw [charListLe_cons] at h1 h2
      split_ifs at h1 h2 <;> first | omega | skip
      have hxy : x = y := char_eq_of_toNat_eq (by omega)
      rw [hxy, ih h1 h2]

theorem strLe_total (a b : String) : strLe a b = true ∨ strLe b a = true :=
  charListLe_total a.data b.data

theorem strLe_trans {a b c : String} (h1 : strLe a b = true) (h2 : strLe b c = true) :
    strLe a c = true :=
  charListLe_trans h1 h2

theorem strLe_antisymm {a b : String} (h1 : strLe a b = true) (h2 : strLe b a = true) :
    a = b :=
  String.ext (charListLe_antisymm h1 h2)

theorem keyLe_total (a b : Key) : keyLe a b = true ∨ keyLe b a = true := by
  cases a <;> cases b <;> simp [keyLe, keyRank, dateTripleLe] <;>
    first | omega | exact strLe_total _ _

theorem keyLe_trans {a b c : Key} (h1 : keyLe a b = true) (h2 : keyLe b c = true) :
    keyLe a c = true := by
  cases a <;> cases b <;> cases c <;>
    simp_all [keyLe, keyRank, dateTripleLe] <;>
    first | omega | exact strLe_trans h1 h2

theorem keyLe_antisymm {a b : Key} (h1 : keyLe a b = true) (h2 : keyLe b a = true) :
    a = b := by
  cases a <;> cases b <;> simp_all [keyLe, keyRank, dateTripleLe] <;>
    first | omega | exact strLe_antisymm h1 h2

instance : IsTotal Key KeyLE := ⟨keyLe_total⟩

instance : IsTrans Key KeyLE := ⟨fun _ _ _ => keyLe_trans⟩

instance : IsAntisymm Key KeyLE := ⟨fun _ _ => keyLe_antisymm⟩

instance : IsTotal OutRow OutRowLE := ⟨fun a b => keyLe_total a.key b.key⟩

instance : IsTrans OutRow OutRowLE := ⟨fun _ _ _ => keyLe_trans⟩

/-! ## Structural lemmas about the pipeline -/

theorem aggOfKept_map_key (fn : Agg) (numY : Nat) (kept : List (Key × List Rat)) :
    (aggOfKept fn numY kept).map OutRow.key = groupKeys kept := by
  simp [aggOfKept, List.map_map, Function.comp_def]

theorem sorted_groupKeys (kept : List (Key × List Rat)) :
    List.Sorted KeyLE (groupKeys kept) :=
  List.sorted_insertionSort KeyLE _

theorem mem_groupKeys {k : Key} {kept : List (Key × List Rat)} :
    k ∈ groupKeys kept ↔ k ∈ kept.map Prod.fst := by
  unfold groupKeys
  rw [List.mem_insertionSort, List.mem_dedup]

theorem nodup_groupKeys (kept : List (Key × List Rat)) : (groupKeys kept).Nodup :=
  (List.perm_insertionSort KeyLE _).nodup_iff.mpr (List.nodup_dedup _)

theorem postSort_perm (isdt : Bool) (mode : TimeMode) (v : List OutRow) :
    List.Perm (postSort isdt mode v) v := by
  unfold postSort
  split
  · exact List.perm_insertionSort OutRowLE v
  · exact List.Perm.refl v

theorem postSort_keys_sorted (isdt : Bool) (mode : TimeMode) {v : List OutRow}
    (h : List.Sorted KeyLE (v.map OutRow.key)) :
    List.Sorted KeyLE ((postSort isdt mode v).map OutRow.key) := by
  unfold postSort
  split
  · exact (List.sorted_insertionSort OutRowLE v).map OutRow.key (fun _ _ hab => hab)
  · exact h

theorem mem_seqOption_none {α β : Type} {f : α → Option β} {l : List α} {x : α}
    (hx : x ∈ l) (hf : f x = none) : seqOption (l.map f) = none := by
  induction l with
  | nil => cases hx
  | cons a as ih =>
    rcases List.mem_cons.mp hx with rfl | hmem
    · simp [seqOption, hf]
    · cases ha : f a with
      | none => simp [seqOption, ha]
      | some b => simp [seqOption, ha, ih hmem]

theorem rowKept_none_of_badY {xcol c : String} {isdt : Bool} {mode : TimeMode}
    {ycols : List String} {r : Row} (hc : c ∈ ycols)
    (hbad : toNumeric (getCell r c) = none) :
    rowKept xcol isdt mode ycols r = none := by
  unfold rowKept
  cases deriveKey isdt mode (getCell r xcol) with
  | none => rfl
  | some k =>
    rw [mem_seqOption_none hc hbad]

theorem rowKept_deriveKey {xcol : String} {isdt : Bool} {mode : TimeMode}
    {ycols : List String} {r : Row} {p : Key × List Rat}
    (h : rowKept xcol isdt mode ycols r = some p) :
    deriveKey isdt mode (getCell r xcol) = some p.1 := by
  unfold rowKept at h
  cases hd : deriveKey isdt mode (getCell r xcol) with
  | none => rw [hd] at h; exact absurd h (by simp)
  | some k =>
    rw [hd] at h
    cases hs : seqOption (ycols.map (fun c => toNumeric (getCell r c))) with
    | none => rw [hs] at h; exact absurd h (by simp)
    | some ys =>
      rw [hs] at h
      cases h
      rfl

theorem mem_keptRows {tbl : Table} {xcol : String} {isdt : Bool} {mode : TimeMode}
    {ycols : List String} {p : Key × List Rat} :
    p ∈ keptRows tbl xcol isdt mode ycols ↔
      ∃ r ∈ tbl, rowKept xcol isdt mode ycols r = some p := by
  unfold keptRows
  exact List.mem_filterMap

theorem mem_aggOfKept_key {fn : Agg} {numY : Nat} {kept : List (Key × List Rat)}
    {row : OutRow} (h : row ∈ aggOfKept fn numY kept) :
    row.key ∈ kept.map Prod.fst := by
  unfold aggOfKept at h
  rcases List.mem_map.mp h with ⟨k, hk, rfl⟩
  exact mem_groupKeys.mp hk

theorem runPipeline_some {tbl : Table} {xcol : String} {mode : TimeMode}
    {ycols : List String} {fn : Agg} {view : List OutRow}
    (h : runPipeline tbl xcol mode ycols fn = some view) :
    view = postSort (isTimeLikeCol (colCells tbl xcol)) mode
      (aggView tbl xcol (isTimeLikeCol (colCells tbl xcol)) mode ycols fn) := by
  unfold runPipeline at h
  split at h
  · exact absurd h (by simp)
  · exact (Option.some.injEq _ _ ▸ h).symm

theorem pipeline_keys_sorted {tbl : Table} {xcol : String} {mode : TimeMode}
    {ycols : List String} {fn : Agg} {view : List OutRow}
    (h : runPipeline tbl xcol mode ycols fn = some view) :
    List.Sorted KeyLE (view.map OutRow.key) := by
  rw [runPipeline_some h]
  apply postSort_keys_sorted
  rw [aggView, aggOfKept_map_key]
  exact sorted_groupKeys _

theorem pipeline_key_mem {tbl : Table} {xcol : String} {mode : TimeMode}
    {ycols : List String} {fn : Agg} {view : List OutRow} {row : OutRow}
    (h : runPipeline tbl xcol mode ycols fn = some view) (hrow : row ∈ view) :
    row.key ∈ (keptRows tbl xcol (isTimeLikeCol (colCells tbl xcol)) mode ycols).map Prod.fst := by
  rw [runPipeline_some h] at hrow
  have hrow2 := (postSort_perm _ _ _).mem_iff.mp hrow
  exact mem_aggOfKept_key hrow2

/-! ## Ratio arithmetic -/

theorem frac_gt_half_iff {k n : Nat} (hk : k ≤ n) :
    ((k : Rat) / (n : Rat) > 1/2) ↔ 2 * k > n := by
  rcases Nat.eq_zero_or_pos n with rfl | hn
  · interval_cases k
    simp
  · have hnQ : (0 : Rat) < (n : Rat) := by exact_mod_cast hn
    rw [gt_iff_lt, div_lt_div_iff₀ (by norm_num) hnQ]
    rw [show (1 : Rat) * n = (n : Rat) by ring,
      show (k : Rat) * 2 = ((2 * k : Nat) : Rat) by push_cast; ring]
    constructor
    · intro h; exact_mod_cast h
    · intro h; exact_mod_cast h

theorem isTimeLikeCol_iff (col : List Cell) :
    isTimeLikeCol col = true ↔
      2 * col.countP (fun c => (toDatetime c).isSome) > col.length := by
  rw [isTimeLikeCol, decide_eq_true_iff, timeParseFrac,
    frac_gt_half_iff (List.countP_le_length _)]

theorem isNumericLikeCol_iff (col : List Cell) :
    isNumericLikeCol col = true ↔
      2 * col.countP (fun c => (toNumeric c).isSome) > col.length := by
  rw [isNumericLikeCol, decide_eq_true_iff, numParseFrac,
    frac_gt_half_iff (List.countP_le_length _)]

/-! ## Claims -/

/-- C7: with an empty Y selection the engine yields no view at all (the
`st.stop` guard fires before the aggregation block), for every table, X
column, derivation mode and reduction — an explicit no-result signal distinct
from any `some view`, empty or not. -/
theorem noYcols_no_view (tbl : Table) (xcol : String) (mode : TimeMode) (fn : Agg) :
    runPipeline tbl xcol mode [] fn = none := by
  simp [runPipeline]

/-- C9: one application of the display-range filter is a pure per-row
selection, so applying it twice with identical bounds returns exactly the rows
of a single application, for every bound kind (date range, numeric range,
category set) and every view. -/
theorem filter_idempotent (spec : FilterSpec) (v : List OutRow) :
    applyFilter spec (applyFilter spec v) = applyFilter spec v := by
  simp [applyFilter, List.filter_filter]

/-- C6 counterexample: the reduction selectbox does not offer "count" — no
engine reduction is named "count". -/
theorem count_not_offered : "count" ∉ aggOptions ∧ ∀ fn : Agg, aggName fn ≠ "count" := by
  refine ⟨by decide, ?_⟩
  intro fn
  cases fn <;> simp [aggName]

/-- C6 amended: the set of reductions the engine accepts is exactly
{sum, mean, median, max, min}; "count" is not among them. -/
theorem agg_set_exact :
    aggOptions = ["sum", "mean", "median", "max", "min"] ∧
    "count" ∉ aggOptions ∧
    ∀ s : String, (∃ fn : Agg, aggName fn = s) ↔ s ∈ aggOptions := by
  refine ⟨rfl, by decide, fun s => ⟨?_, ?_⟩⟩
  · rintro ⟨fn, rfl⟩
    cases fn <;> simp [aggName, aggOptions]
  · intro hs
    simp only [aggOptions, List.mem_cons, List.mem_singleton] at hs
    rcases hs with rfl | rfl | rfl | rfl | rfl | h
    · exact ⟨Agg.sum, rfl⟩
    · exact ⟨Agg.mean, rfl⟩
    · exact ⟨Agg.median, rfl⟩
    · exact ⟨Agg.max, rfl⟩
    · exact ⟨Agg.min, rfl⟩
    · cases h

/-- C8: a column is classified time-like exactly when strictly more than half
of its cells parse as timestamps, numeric-like exactly when strictly more than
half parse as numbers, and an all-missing column (whose cells all fail both
coercions) is classified as neither; classification is a total Boolean
function, never an error. -/
theorem typeInference_strict_majority :
    (∀ col : List Cell, isTimeLikeCol col = true ↔
        2 * col.countP (fun c => (toDatetime c).isSome) > col.length) ∧
    (∀ col : List Cell, isNumericLikeCol col = true ↔
        2 * col.countP (fun c => (toNumeric c).isSome) > col.length) ∧
    (∀ col : List Cell, (∀ c ∈ col, c = Cell.missing) →
        isTimeLikeCol col = false ∧ isNumericLikeCol col = false) := by
  refine ⟨isTimeLikeCol_iff, isNumericLikeCol_iff, fun col hmiss => ?_⟩
  have ht : col.countP (fun c => (toDatetime c).isSome) = 0 := by
    rw [List.countP_eq_zero]
    intro c hc
    rw [hmiss c hc]
    simp [toDatetime]
  have hn : col.countP (fun c => (toNumeric c).isSome) = 0 := by
    rw [List.countP_eq_zero]
    intro c hc
    rw [hmiss c hc]
    simp [toNumeric]
  constructor
  · rw [Bool.eq_false_iff, Ne, isTimeLikeCol_iff, ht]
    omega
  · rw [Bool.eq_false_iff, Ne, isNumericLikeCol_iff, hn]
    omega

/-- Witness for C8 at the one-cell all-missing column. -/
theorem typeInference_strict_majority_witness :
    isTimeLikeCol [Cell.missing] = false ∧ isNumericLikeCol [Cell.missing] = false :=
  typeInference_strict_majority.2.2 [Cell.missing] (by simp)

/-- C10: a source row whose key derives but whose value in some selected Y
column fails numeric coercion is dropped whole by
`dropna(subset=["_X_key"] + y_cols)`: appending such a row to any table leaves
the entire aggregated view unchanged — every group's every Y cell, for all
selected Y columns. -/
theorem badY_row_dropped {r : Row} {xcol c : String} {isdt : Bool}
    {mode : TimeMode} {ycols : List String} {k : Key}
    (tbl : Table) (fn : Agg)
    (hkey : deriveKey isdt mode (getCell r xcol) = some k)
    (hc : c ∈ ycols) (hbad : toNumeric (getCell r c) = none) :
    aggView (tbl ++ [r]) xcol isdt mode ycols fn = aggView tbl xcol isdt mode ycols fn := by
  unfold aggView keptRows
  rw [List.filterMap_append]
  simp [rowKept_none_of_badY hc hbad]

/-- Witness for C10: a row keyed "C" with unparseable Y, appended to a
one-row table. -/
theorem badY_row_dropped_witness :
    aggView (tblBase ++ [rowBadY]) "x" false TimeMode.hour ["y"] Agg.sum
      = aggView tblBase "x" false TimeMode.hour ["y"] Agg.sum :=
  @badY_row_dropped rowBadY "x" "y" false TimeMode.hour ["y"] (Key.kstr "C") tblBase Agg.sum
    (by decide) (List.mem_singleton.mpr rfl) (by decide)

/-- C1 counterexample: in `tblMissingY` the "A" key derives successfully and
its only row has a missing Y value; the aggregated view is exactly the "B"
row — there is no "A" row carrying a missing cell. -/
theorem allMissingY_no_row_counterexample :
    deriveKey false TimeMode.hour (Cell.val none none "A") = some (Key.kstr "A") ∧
    runPipeline tblMissingY "x" TimeMode.hour ["y"] Agg.sum
      = some [⟨Key.kstr "B", [5]⟩] ∧
    ∀ row ∈ [(⟨Key.kstr "B", [5]⟩ : OutRow)], row.key ≠ Key.kstr "A" := by
  refine ⟨by decide, ?_, by decide⟩
  norm_num +decide [runPipeline, postSort, aggView, aggOfKept, groupKeys, keptRows, rowKept,
    deriveKey, getCell, tblMissingY, seqOption, toNumeric, toStringCast, List.insertionSort,
    List.orderedInsert, KeyLE, keyLe, strLe, charListLe, List.dedup, reduce, ratSum,
    isTimeLikeCol, timeParseFrac, colCells, toDatetime, List.filterMap_cons, List.find?_cons]

/-- C1 amended: if every row whose derived key equals `k` has a missing value
in some selected Y column, then those rows are dropped before grouping and the
aggregated view contains no row for `k` at all (rather than a row with a
missing cell). -/
theorem allMissingY_group_absent {tbl : Table} {xcol : String} {mode : TimeMode}
    {ycols : List String} {fn : Agg} {view : List OutRow} {k : Key}
    (hrun : runPipeline tbl xcol mode ycols fn = some view)
    (hbad : ∀ r ∈ tbl,
      deriveKey (isTimeLikeCol (colCells tbl xcol)) mode (getCell r xcol) = some k →
      ∃ c ∈ ycols, toNumeric (getCell r c) = none) :
    ∀ row ∈ view, row.key ≠ k := by
  intro row hrow heq
  have hmem := pipeline_key_mem hrun hrow
  rw [heq] at hmem
  rcases List.mem_map.mp hmem with ⟨p, hp, hpk⟩
  rcases mem_keptRows.mp hp with ⟨r, hr, hkept⟩
  have hder := rowKept_deriveKey hkept
  rw [hpk] at hder
  rcases hbad r hr hder with ⟨c, hc, hcbad⟩
  rw [rowKept_none_of_badY hc hcbad] at hkept
  cases hkept

/-- Witness for C1 at `tblMissingY` and key "A": the view has no "A" row. -/
theorem allMissingY_group_absent_witness :
    (Key.kstr "A" ∈ ([(⟨Key.kstr "B", [5]⟩ : OutRow)] : List OutRow).map OutRow.key) ↔ False := by
  rw [iff_false]
  intro hmem
  rcases List.mem_map.mp hmem with ⟨row, hrow, hkey⟩
  refine @allMissingY_group_absent tblMissingY "x" TimeMode.hour ["y"] Agg.sum
    [⟨Key.kstr "B", [5]⟩] (Key.kstr "A") ?_ ?_ row hrow hkey
  · norm_num +decide [runPipeline, postSort, aggView, aggOfKept, groupKeys, keptRows, rowKept,
      deriveKey, getCell, tblMissingY, seqOption, toNumeric, toStringCast, List.insertionSort,
      List.orderedInsert, KeyLE, keyLe, strLe, charListLe, List.dedup, reduce, ratSum,
      isTimeLikeCol, timeParseFrac, colCells, toDatetime, List.filterMap_cons, List.find?_cons]
  · norm_num +decide [tblMissingY, getCell, deriveKey, toStringCast, toNumeric, isTimeLikeCol,
      timeParseFrac, colCells, toDatetime, List.find?_cons]

/-- C2 counterexample: for the categorical table whose X values arrive as
"B", "A", the view lists keys in lexicographic order ["A", "B"], while
first-occurrence order (the spec's rule) is ["B", "A"]. -/
theorem catKey_not_firstOccurrence_counterexample :
    runPipeline tblCat "x" TimeMode.hour ["y"] Agg.sum
      = some [⟨Key.kstr "A", [2]⟩, ⟨Key.kstr "B", [1]⟩] ∧
    firstOccurrenceKeys (keptRows tblCat "x" false TimeMode.hour ["y"])
      = [Key.kstr "B", Key.kstr "A"] ∧
    [Key.kstr "A", Key.kstr "B"] ≠ [Key.kstr "B", Key.kstr "A"] := by
  refine ⟨?_, ?_, by decide⟩
  · norm_num +decide [runPipeline, postSort, aggView, aggOfKept, groupKeys, keptRows, rowKept,
      deriveKey, getCell, tblCat, seqOption, toNumeric, toStringCast, List.insertionSort,
      List.orderedInsert, KeyLE, keyLe, strLe, charListLe, List.dedup, reduce, ratSum,
      isTimeLikeCol, timeParseFrac, colCells, toDatetime, List.filterMap_cons, List.find?_cons]
  · simp +decide [firstOccurrenceKeys, keptRows, rowKept, deriveKey, getCell, tblCat,
      seqOption, toNumeric, toStringCast, List.filterMap_cons, List.find?_cons]

/-- C2 amended: with a non-time-like X the keys of the view are the string
casts of the X values in ascending lexicographic (code-point) order — the
`groupby(sort=True)` order — not first-occurrence order. -/
theorem catKey_lex_sorted {tbl : Table} {xcol : String} {mode : TimeMode}
    {ycols : List String} {fn : Agg} {view : List OutRow}
    (hdt : isTimeLikeCol (colCells tbl xcol) = false)
    (hrun : runPipeline tbl xcol mode ycols fn = some view) :
    List.Sorted KeyLE (view.map OutRow.key) ∧
    (∀ k ∈ view.map OutRow.key, ∃ s, k = Key.kstr s) ∧
    (∀ a b : String, KeyLE (Key.kstr a) (Key.kstr b) ↔ strLe a b = true) := by
  refine ⟨pipeline_keys_sorted hrun, ?_, fun a b => Iff.rfl⟩
  intro k hk
  rcases List.mem_map.mp hk with ⟨row, hrow, rfl⟩
  have hmem := pipeline_key_mem hrun hrow
  rcases List.mem_map.mp hmem with ⟨p, hp, hpk⟩
  rcases mem_keptRows.mp hp with ⟨r, hr, hkept⟩
  have hder := rowKept_deriveKey hkept
  rw [hdt] at hder
  simp only [deriveKey, Bool.false_eq_true, if_false, Option.map_eq_some'] at hder
  rcases hder with ⟨s, _, hsk⟩
  exact ⟨s, by rw [← hpk, ← hsk]⟩

/-- Witness for C2 at `tblCat`. -/
theorem catKey_lex_sorted_witness :
    List.Sorted KeyLE (([⟨Key.kstr "A", [2]⟩, ⟨Key.kstr "B", [1]⟩] : List OutRow).map OutRow.key) ∧
    (∀ k ∈ ([⟨Key.kstr "A", [2]⟩, ⟨Key.kstr "B", [1]⟩] : List OutRow).map OutRow.key,
      ∃ s, k = Key.kstr s) ∧
    (∀ a b : String, KeyLE (Key.kstr a) (Key.kstr b) ↔ strLe a b = true) := by
  refine @catKey_lex_sorted tblCat "x" TimeMode.hour ["y"] Agg.sum
    [⟨Key.kstr "A", [2]⟩, ⟨Key.kstr "B", [1]⟩] ?_ ?_
  · simp +decide [isTimeLikeCol, timeParseFrac, colCells, tblCat, getCell, toDatetime,
      List.find?_cons]
  · norm_num +decide [runPipeline, postSort, aggView, aggOfKept, groupKeys, keptRows, rowKept,
      deriveKey, getCell, tblCat, seqOption, toNumeric, toStringCast, List.insertionSort,
      List.orderedInsert, KeyLE, keyLe, strLe, charListLe, List.dedup, reduce, ratSum,
      isTimeLikeCol, timeParseFrac, colCells, toDatetime, List.filterMap_cons, List.find?_cons]

/-- C3 counterexample: for a raw numeric X (values 2 and 10, not
time-parseable) the key is the string cast; the view orders the keys
lexicographically as ["10", "2"], and the underlying numeric values 10, 2
violate ascending numeric order. -/
theorem numericKey_not_sorted_counterexample :
    (runPipeline tblNum "x" TimeMode.hour ["y"] Agg.sum).map (fun v => v.map OutRow.key)
      = some [Key.kstr "10", Key.kstr "2"] ∧
    toNumeric (Cell.val none (some 10) "10") = some 10 ∧
    toNumeric (Cell.val none (some 2) "2") = some 2 ∧
    ¬ ((10 : Rat) ≤ 2) := by
  refine ⟨?_, rfl, rfl, by norm_num⟩
  norm_num +decide [runPipeline, postSort, aggView, aggOfKept, groupKeys, keptRows, rowKept,
    deriveKey, getCell, tblNum, seqOption, toNumeric, toStringCast, List.insertionSort,
    List.orderedInsert, KeyLE, keyLe, strLe, charListLe, List.dedup, reduce, ratSum,
    isTimeLikeCol, timeParseFrac, colCells, toDatetime, List.filterMap_cons, List.find?_cons]

/-- C3 amended: for the hour- and month-derived keys (the only numeric-dtype
keys the pipeline produces) the view is sorted ascending by numeric key
value; the raw-numeric-X case is excluded because such an X is cast to
strings and ordered lexicographically. -/
theorem hourMonthKey_sorted {tbl : Table} {xcol : String} {mode : TimeMode}
    {ycols : List String} {fn : Agg} {view : List OutRow}
    (hdt : isTimeLikeCol (colCells tbl xcol) = true)
    (hmode : mode = TimeMode.hour ∨ mode = TimeMode.month)
    (hrun : runPipeline tbl xcol mode ycols fn = some view) :
    List.Sorted KeyLE (view.map OutRow.key) ∧
    (∀ k ∈ view.map OutRow.key, ∃ n : Int, k = Key.knum n) ∧
    (∀ a b : Int, KeyLE (Key.knum a) (Key.knum b) ↔ a ≤ b) := by
  refine ⟨pipeline_keys_sorted hrun, ?_, fun a b => by simp [KeyLE, keyLe]⟩
  intro k hk
  rcases List.mem_map.mp hk with ⟨row, hrow, rfl⟩
  have hmem := pipeline_key_mem hrun hrow
  rcases List.mem_map.mp hmem with ⟨p, hp, hpk⟩
  rcases mem_keptRows.mp hp with ⟨r, hr, hkept⟩
  have hder := rowKept_deriveKey hkept
  rw [hdt] at hder
  rcases hmode with rfl | rfl <;>
    simp only [deriveKey, if_true, Option.map_eq_some'] at hder <;>
    rcases hder with ⟨t, _, hsk⟩
  · exact ⟨t.hour, by rw [← hpk, ← hsk]⟩
  · exact ⟨t.month, by rw [← hpk, ← hsk]⟩

/-- Witness for C3 at `tblHours` (hours arrive as 9 then 8; the view is
sorted to 8, 9). -/
theorem hourMonthKey_sorted_witness :
    List.Sorted KeyLE (([⟨Key.knum 8, [3]⟩, ⟨Key.knum 9, [7]⟩] : List OutRow).map OutRow.key) ∧
    (∀ k ∈ ([⟨Key.knum 8, [3]⟩, ⟨Key.knum 9, [7]⟩] : List OutRow).map OutRow.key,
      ∃ n : Int, k = Key.knum n) ∧
    (∀ a b : Int, KeyLE (Key.knum a) (Key.knum b) ↔ a ≤ b) := by
  refine @hourMonthKey_sorted tblHours "ts" TimeMode.hour ["y"] Agg.sum
    [⟨Key.knum 8, [3]⟩, ⟨Key.knum 9, [7]⟩] ?_ (Or.inl rfl) ?_
  · norm_num +decide [isTimeLikeCol, timeParseFrac, colCells, tblHours, getCell, toDatetime,
      List.find?_cons]
  · norm_num +decide [runPipeline, postSort, aggView, aggOfKept, groupKeys, keptRows, rowKept,
      deriveKey, getCell, tblHours, seqOption, toNumeric, toStringCast, List.insertionSort,
      List.orderedInsert, KeyLE, keyLe, OutRowLE, strLe, charListLe, List.dedup, reduce, ratSum,
      isTimeLikeCol, timeParseFrac, colCells, toDatetime, List.filterMap_cons, List.find?_cons]

/-- C4 counterexample: the two rows of `tblTwoYears` live in January of 2023
and of 2024; both keys derive, yet the month-derived view has a single row
with key 1 — the years were merged, not kept distinct. -/
theorem monthKey_merges_years_counterexample :
    runPipeline tblTwoYears "ts" TimeMode.month ["y"] Agg.sum
      = some [⟨Key.knum 1, [15]⟩] ∧
    (colCells tblTwoYears "ts").map toDatetime = [some tsJan2023, some tsJan2024] ∧
    tsJan2023.year = 2023 ∧ tsJan2024.year = 2024 ∧
    tsJan2023.month = 1 ∧ tsJan2024.month = 1 := by
  refine ⟨?_, by decide, rfl, rfl, rfl, rfl⟩
  norm_num +decide [runPipeline, postSort, aggView, aggOfKept, groupKeys, keptRows, rowKept,
    deriveKey, getCell, tblTwoYears, tsJan2023, tsJan2024, seqOption, toNumeric, toStringCast,
    List.insertionSort, List.orderedInsert, KeyLE, keyLe, OutRowLE, strLe, charListLe,
    List.dedup, reduce, ratSum, isTimeLikeCol, timeParseFrac, colCells, toDatetime,
    List.filterMap_cons, List.find?_cons, List.range_succ]

/-- C4 amended: the month derivation is `ts.dt.month`, the month-of-year
1–12; any two parsed timestamps with equal month — regardless of year — derive
the same grouping key and therefore fall into the same group. -/
theorem monthKey_month_of_year {c1 c2 : Cell} {t1 t2 : Timestamp}
    (h1 : toDatetime c1 = some t1) (h2 : toDatetime c2 = some t2)
    (hm : t1.month = t2.month) :
    deriveKey true TimeMode.month c1 = deriveKey true TimeMode.month c2 := by
  simp [deriveKey, h1, h2, hm]

/-- Witness for C4 at the January 2023 and January 2024 cells. -/
theorem monthKey_month_of_year_witness :
    deriveKey true TimeMode.month (Cell.val (some tsJan2023) none "2023-01-15 08:00:00")
      = deriveKey true TimeMode.month (Cell.val (some tsJan2024) none "2024-01-20 09:00:00") :=
  @monthKey_month_of_year (Cell.val (some tsJan2023) none "2023-01-15 08:00:00")
    (Cell.val (some tsJan2024) none "2024-01-20 09:00:00") tsJan2023 tsJan2024 rfl rfl rfl

theorem weekday_kept_key_shape {tbl : Table} {xcol : String} {ycols : List String} {k : Key}
    (hk : k ∈ (keptRows tbl xcol true TimeMode.weekday ycols).map Prod.fst) :
    ∃ n, n < 7 ∧ k = Key.kcat n := by
  rcases List.mem_map.mp hk with ⟨p, hp, hpk⟩
  rcases mem_keptRows.mp hp with ⟨r, _, hkept⟩
  have hder := rowKept_deriveKey hkept
  simp only [deriveKey, if_true, Option.map_eq_some'] at hder
  rcases hder with ⟨t, _, hsk⟩
  exact ⟨t.weekday.val, t.weekday.isLt, by rw [← hpk, ← hsk]⟩

/-- C5: with a time-like X and weekday derivation, every key of the view is
one of the 7 fixed ordered weekday categories, and the view lists exactly the
canonical Monday→Sunday category order restricted to the weekdays present in
the kept rows — never alphabetical, never input order, and with no rows for
absent weekdays. -/
theorem weekdayKey_canonical_order {tbl : Table} {xcol : String}
    {ycols : List String} {fn : Agg} {view : List OutRow}
    (hdt : isTimeLikeCol (colCells tbl xcol) = true)
    (hrun : runPipeline tbl xcol TimeMode.weekday ycols fn = some view) :
    view.map OutRow.key
      = weekdayOrder.filter (fun k =>
          decide (k ∈ (keptRows tbl xcol true TimeMode.weekday ycols).map Prod.fst)) ∧
    ∀ k ∈ view.map OutRow.key, ∃ n, n < 7 ∧ k = Key.kcat n := by
  have hview : view = aggView tbl xcol true TimeMode.weekday ycols fn := by
    have h := runPipeline_some hrun
    rw [hdt] at h
    simpa [postSort] using h
  have hkeys : view.map OutRow.key
      = groupKeys (keptRows tbl xcol true TimeMode.weekday ycols) := by
    rw [hview, aggView, aggOfKept_map_key]
  have hshape : ∀ k ∈ (keptRows tbl xcol true TimeMode.weekday ycols).map Prod.fst,
      ∃ n, n < 7 ∧ k = Key.kcat n := fun k hk => weekday_kept_key_shape hk
  constructor
  · rw [hkeys]
    have hSnodup := nodup_groupKeys (keptRows tbl xcol true TimeMode.weekday ycols)
    have hSsorted := sorted_groupKeys (keptRows tbl xcol true TimeMode.weekday ycols)
    have hWnodup : weekdayOrder.Nodup := by decide
    have hWsorted : List.Sorted KeyLE weekdayOrder := by decide
    have hFnodup := hWnodup.filter (fun k =>
      decide (k ∈ (keptRows tbl xcol true TimeMode.weekday ycols).map Prod.fst))
    have hFsorted := hWsorted.filter (fun k =>
      decide (k ∈ (keptRows tbl xcol true TimeMode.weekday ycols).map Prod.fst))
    have hmemiff : ∀ a, a ∈ groupKeys (keptRows tbl xcol true TimeMode.weekday ycols) ↔
        a ∈ weekdayOrder.filter (fun k =>
          decide (k ∈ (keptRows tbl xcol true TimeMode.weekday ycols).map Prod.fst)) := by
      intro a
      rw [mem_groupKeys, List.mem_filter, decide_eq_true_iff]
      constructor
      · intro ha
        refine ⟨?_, ha⟩
        rcases hshape a ha with ⟨n, hn, rfl⟩
        exact List.mem_map.mpr ⟨n, List.mem_range.mpr hn, rfl⟩
      · exact And.right
    have hperm := (List.perm_ext_iff_of_nodup hSnodup hFnodup).mpr hmemiff
    exact List.eq_of_perm_of_sorted hperm hSsorted hFsorted
  · intro k hk
    rw [hkeys, mem_groupKeys] at hk
    exact hshape k hk

/-- Witness for C5 at `tblWeekdays` (rows arrive Wednesday then Monday; the
view lists Monday before Wednesday). -/
theorem weekdayKey_canonical_order_witness :
    ([⟨Key.kcat 0, [3]⟩, ⟨Key.kcat 2, [5]⟩] : List OutRow).map OutRow.key
      = weekdayOrder.filter (fun k =>
          decide (k ∈ (keptRows tblWeekdays "ts" true TimeMode.weekday ["y"]).map Prod.fst)) ∧
    ∀ k ∈ ([⟨Key.kcat 0, [3]⟩, ⟨Key.kcat 2, [5]⟩] : List OutRow).map OutRow.key,
      ∃ n, n < 7 ∧ k = Key.kcat n := by
  refine @weekdayKey_canonical_order tblWeekdays "ts" ["y"] Agg.sum
    [⟨Key.kcat 0, [3]⟩, ⟨Key.kcat 2, [5]⟩] ?_ ?_
  · norm_num +decide [isTimeLikeCol, timeParseFrac, colCells, tblWeekdays, getCell, toDatetime,
      List.find?_cons]
  · norm_num +decide [runPipeline, postSort, aggView, aggOfKept, groupKeys, keptRows, rowKept,
      deriveKey, getCell, tblWeekdays, seqOption, toNumeric, toStringCast, List.insertionSort,
      List.orderedInsert, KeyLE, keyLe, OutRowLE, strLe, charListLe, List.dedup, reduce, ratSum,
      isTimeLikeCol, timeParseFrac, colCells, toDatetime, List.filterMap_cons, List.find?_cons,
      List.range_succ]
